import Mathlib

/-!
Shallow embedding of the chunked-download core of `src/main.rs`
(iDownloader): chunk planning, the per-chunk retry loop, progress
accounting, ordered reassembly, and the top-level control flow of `main`.

Machine integers (`u64`) are modelled by `Nat`; the arithmetic of the
planner never overflows `u64` under the hypotheses of the theorems below
(all intermediate products are bounded by `content_length < 2^64`), so no
explicit `% 2^64` is needed there.  The `Content-Length` parser enforces
the `u64` range bound explicitly.  Rust operations that can panic
(integer division by zero at `main.rs:115`, `.expect` on the
`Content-Length` parse at `main.rs:112`) are modelled by `Option`, with
`none` standing for the panic.
-/

set_option autoImplicit false

namespace IDownloader

/-- One inclusive byte range (`ChunkRange` of the spec), `main.rs:135-141`.
`index` is the loop variable `i`, `startByte = i * chunk_size`,
`endByte` as computed by the `if i == chunk_count - 1` branch. -/
structure ChunkRange where
  index : Nat
  startByte : Nat
  endByte : Nat
  deriving Repr, DecidableEq

/-- Rust `u64` division: panics (here `none`) on a zero divisor.
Models `content_length / chunk_count` at `main.rs:115`. -/
def rustDiv (a b : Nat) : Option Nat :=
  if b = 0 then none else some (a / b)

/-- Chunk count: `chunk_count = args.max_chunks.min(content_length)`,
`main.rs:113`. -/
def chunkCount (maxChunks totalSize : Nat) : Nat :=
  min maxChunks totalSize

/-- The range of chunk `i` given `chunk_size` and `chunk_count`,
`main.rs:136-141`: `start = i * chunk_size`;
`end = content_length - 1` if `i == chunk_count - 1`
else `(i + 1) * chunk_size - 1`. -/
def chunkRangeAt (totalSize chunkSize n i : Nat) : ChunkRange :=
  { index := i
    startByte := i * chunkSize
    endByte := if i = n - 1 then totalSize - 1 else (i + 1) * chunkSize - 1 }

/-- The chunk plan of `main.rs:113-141`: `chunk_count` ranges produced by
the `for i in 0..chunk_count` loop.  `none` models the division-by-zero
panic of `main.rs:115` when `chunk_count = 0`. -/
def plan (totalSize maxChunks : Nat) : Option (List ChunkRange) :=
  let n := chunkCount maxChunks totalSize
  match rustDiv totalSize n with
  | none => none
  | some cs => some ((List.range n).map (chunkRangeAt totalSize cs n))

example : plan 1000 3 =
    some [⟨0, 0, 332⟩, ⟨1, 333, 665⟩, ⟨2, 666, 999⟩] := by decide

example : plan 5 8 =
    some [⟨0, 0, 0⟩, ⟨1, 1, 1⟩, ⟨2, 2, 2⟩, ⟨3, 3, 3⟩, ⟨4, 4, 4⟩] := by decide

example : plan 0 500 = none := by decide

/-! ### Arithmetic facts about the planner -/

lemma chunkCount_pos (M T : Nat) (hT : 0 < T) (hM : 1 ≤ M) : 0 < chunkCount M T := by
  unfold chunkCount; omega

lemma chunkCount_le (M T : Nat) : chunkCount M T ≤ T := min_le_right M T

lemma plan_eq (T M : Nat) (h : 0 < chunkCount M T) :
    plan T M = some ((List.range (chunkCount M T)).map
      (chunkRangeAt T (T / chunkCount M T) (chunkCount M T))) := by
  have hne : ¬ chunkCount M T = 0 := by omega
  simp [plan, rustDiv, hne]

lemma chunkRangeAt_index (T cs n i : Nat) : (chunkRangeAt T cs n i).index = i := rfl

lemma chunkRangeAt_start (T cs n i : Nat) :
    (chunkRangeAt T cs n i).startByte = i * cs := rfl

lemma chunkRangeAt_end_last (T cs n : Nat) :
    (chunkRangeAt T cs n (n - 1)).endByte = T - 1 := by
  simp [chunkRangeAt]

lemma chunkRangeAt_end_mid (T cs n i : Nat) (h : i ≠ n - 1) :
    (chunkRangeAt T cs n i).endByte = (i + 1) * cs - 1 := by
  simp [chunkRangeAt, h]

lemma cs_pos (T n : Nat) (hn : 0 < n) (hnT : n ≤ T) : 0 < T / n :=
  (Nat.one_le_div_iff hn).mpr hnT

lemma n_mul_cs_le (T n : Nat) : n * (T / n) ≤ T := by
  have h := Nat.div_add_mod T n
  omega

lemma chunk_start_le_end (T n i : Nat) (hn : 0 < n) (hnT : n ≤ T) (hi : i < n) :
    (chunkRangeAt T (T / n) n i).startByte ≤ (chunkRangeAt T (T / n) n i).endByte := by
  have hcs1 : 0 < T / n := cs_pos T n hn hnT
  have hmul : n * (T / n) ≤ T := n_mul_cs_le T n
  rw [chunkRangeAt_start]
  by_cases h : i = n - 1
  · rw [h, chunkRangeAt_end_last]
    have h1 : (n - 1) * (T / n) + T / n = n * (T / n) := by
      obtain ⟨m, rfl⟩ : ∃ m, n = m + 1 := ⟨n - 1, by omega⟩
      simp [Nat.succ_sub_one]
      ring
    omega
  · rw [chunkRangeAt_end_mid T (T / n) n i h]
    have h1 : (i + 1) * (T / n) = i * (T / n) + T / n := by ring
    omega

lemma chunk_end_lt (T n i : Nat) (hn : 0 < n) (hnT : n ≤ T) (hi : i < n) :
    (chunkRangeAt T (T / n) n i).endByte < T := by
  by_cases h : i = n - 1
  · rw [h, chunkRangeAt_end_last]; omega
  · rw [chunkRangeAt_end_mid T (T / n) n i h]
    have h1 : (i + 1) * (T / n) ≤ n * (T / n) := Nat.mul_le_mul_right _ (by omega)
    have h2 : n * (T / n) ≤ T := n_mul_cs_le T n
    omega

lemma chunk_disjoint (T n i j : Nat) (hn : 0 < n) (hnT : n ≤ T)
    (hij : i < j) (hj : j < n) :
    (chunkRangeAt T (T / n) n i).endByte < (chunkRangeAt T (T / n) n j).startByte := by
  have hcs1 : 0 < T / n := cs_pos T n hn hnT
  have hi_ne : i ≠ n - 1 := by omega
  rw [chunkRangeAt_end_mid T (T / n) n i hi_ne, chunkRangeAt_start]
  have h1 : (i + 1) * (T / n) ≤ j * (T / n) := Nat.mul_le_mul_right _ (by omega)
  have h2 : 0 < (i + 1) * (T / n) := Nat.mul_pos (by omega) hcs1
  omega

lemma chunk_contiguous (T n i : Nat) (hn : 0 < n) (hnT : n ≤ T) (hi : i + 1 < n) :
    (chunkRangeAt T (T / n) n i).endByte + 1 =
      (chunkRangeAt T (T / n) n (i + 1)).startByte := by
  have hcs1 : 0 < T / n := cs_pos T n hn hnT
  rw [chunkRangeAt_end_mid T (T / n) n i (by omega), chunkRangeAt_start]
  have h2 : 0 < (i + 1) * (T / n) := Nat.mul_pos (by omega) hcs1
  omega

lemma chunk_cover (T n k : Nat) (hn : 0 < n) (hnT : n ≤ T) (hk : k < T) :
    ∃ i, i < n ∧ (chunkRangeAt T (T / n) n i).startByte ≤ k ∧
      k ≤ (chunkRangeAt T (T / n) n i).endByte := by
  have hcs1 : 0 < T / n := cs_pos T n hn hnT
  by_cases hq : k / (T / n) < n - 1
  · refine ⟨k / (T / n), by omega, ?_, ?_⟩
    · rw [chunkRangeAt_start]
      exact Nat.div_mul_le_self k (T / n)
    · rw [chunkRangeAt_end_mid T (T / n) n _ (by omega)]
      have hdm := Nat.div_add_mod k (T / n)
      have hm2 : k % (T / n) < T / n := Nat.mod_lt _ hcs1
      have hr : (k / (T / n) + 1) * (T / n) = T / n * (k / (T / n)) + T / n := by ring
      omega
  · refine ⟨n - 1, by omega, ?_, ?_⟩
    · rw [chunkRangeAt_start]
      have h1 : (n - 1) * (T / n) ≤ k / (T / n) * (T / n) :=
        Nat.mul_le_mul_right _ (by omega)
      have h2 : k / (T / n) * (T / n) ≤ k := Nat.div_mul_le_self k (T / n)
      omega
    · rw [chunkRangeAt_end_last]
      omega

lemma sum_map_const_range (m c : Nat) :
    ((List.range m).map (fun _ => c)).sum = m * c := by
  induction m with
  | zero => simp
  | succ k ih =>
      rw [List.range_succ, List.map_append, List.sum_append]
      simp [ih]
      ring

/-- Sum of the planned chunk sizes: the ranges of one plan together cover
exactly `totalSize` bytes. -/
lemma chunk_sizes_sum (T n : Nat) (hn : 0 < n) (hnT : n ≤ T) :
    ((List.range n).map (fun i => (chunkRangeAt T (T / n) n i).endByte + 1 -
      (chunkRangeAt T (T / n) n i).startByte)).sum = T := by
  have hcs1 : 0 < T / n := cs_pos T n hn hnT
  have hmul : n * (T / n) ≤ T := n_mul_cs_le T n
  obtain ⟨m, rfl⟩ : ∃ m, n = m + 1 := ⟨n - 1, by omega⟩
  rw [List.range_succ, List.map_append, List.sum_append]
  have hmid : List.map (fun i => (chunkRangeAt T (T / (m + 1)) (m + 1) i).endByte + 1 -
        (chunkRangeAt T (T / (m + 1)) (m + 1) i).startByte) (List.range m) =
      List.map (fun _ => T / (m + 1)) (List.range m) := by
    apply List.map_congr_left
    intro i hi
    rw [List.mem_range] at hi
    rw [chunkRangeAt_end_mid T (T / (m + 1)) (m + 1) i (by omega), chunkRangeAt_start]
    have h1 : (i + 1) * (T / (m + 1)) = i * (T / (m + 1)) + T / (m + 1) := by ring
    omega
  rw [hmid, sum_map_const_range]
  simp only [List.map_cons, List.map_nil, List.sum_cons, List.sum_nil]
  rw [chunkRangeAt_start]
  have hlast : (chunkRangeAt T (T / (m + 1)) (m + 1) m).endByte = T - 1 :=
    chunkRangeAt_end_last T (T / (m + 1)) (m + 1)
  rw [hlast]
  have h2 : (m + 1) * (T / (m + 1)) = m * (T / (m + 1)) + T / (m + 1) := by ring
  omega

/-- C1: for every `totalSize > 0` and `maxChunks ≥ 1`, the chunk plan of
`main.rs:113-141` consists of exactly `min maxChunks totalSize`
index-ordered, nonempty, contiguous, pairwise-disjoint inclusive ranges
whose union is exactly `[0, totalSize - 1]`, and the last chunk absorbs
the whole division remainder (its size is `chunkSize + totalSize %
chunkCount`). -/
theorem plan_covers_exactly (T M : Nat) (hT : 0 < T) (hM : 1 ≤ M) :
    ∃ rs : List ChunkRange, plan T M = some rs ∧
      rs.length = min M T ∧
      (∀ i : Fin rs.length, (rs.get i).index = i.val) ∧
      (∀ i : Fin rs.length, (rs.get i).startByte ≤ (rs.get i).endByte) ∧
      (∀ i j : Fin rs.length, j.val = i.val + 1 →
        (rs.get i).endByte + 1 = (rs.get j).startByte) ∧
      (∀ i j : Fin rs.length, i.val < j.val →
        (rs.get i).endByte < (rs.get j).startByte) ∧
      (∀ k : Nat, k < T ↔ ∃ r ∈ rs, r.startByte ≤ k ∧ k ≤ r.endByte) ∧
      ∀ h : rs ≠ [], (rs.getLast h).endByte = T - 1 ∧
        (rs.getLast h).endByte + 1 - (rs.getLast h).startByte
          = T / min M T + T % min M T := by
  have hn : 0 < chunkCount M T := chunkCount_pos M T hT hM
  have hnT : chunkCount M T ≤ T := chunkCount_le M T
  refine ⟨(List.range (chunkCount M T)).map
      (chunkRangeAt T (T / chunkCount M T) (chunkCount M T)),
    plan_eq T M hn, ?_, ?_, ?_, ?_, ?_, ?_, ?_⟩
  · simp [chunkCount]
  · intro i
    simp [List.get_eq_getElem, chunkRangeAt_index]
  · intro i
    have hi : i.val < chunkCount M T := by
      have h := i.isLt
      simpa using h
    simp only [List.get_eq_getElem, List.getElem_map, List.getElem_range]
    exact chunk_start_le_end T (chunkCount M T) i.val hn hnT hi
  · intro i j hij
    have hj : j.val < chunkCount M T := by
      have h := j.isLt
      simpa using h
    simp only [List.get_eq_getElem, List.getElem_map, List.getElem_range]
    rw [hij]
    exact chunk_contiguous T (chunkCount M T) i.val hn hnT (hij ▸ hj)
  · intro i j hij
    have hj : j.val < chunkCount M T := by
      have h := j.isLt
      simpa using h
    simp only [List.get_eq_getElem, List.getElem_map, List.getElem_range]
    exact chunk_disjoint T (chunkCount M T) i.val j.val hn hnT hij hj
  · intro k
    constructor
    · intro hk
      obtain ⟨i, hi, h1, h2⟩ := chunk_cover T (chunkCount M T) k hn hnT hk
      exact ⟨chunkRangeAt T (T / chunkCount M T) (chunkCount M T) i,
        List.mem_map.mpr ⟨i, List.mem_range.mpr hi, rfl⟩, h1, h2⟩
    · rintro ⟨r, hr, h1, h2⟩
      obtain ⟨i, hi, rfl⟩ := List.mem_map.mp hr
      have hend := chunk_end_lt T (chunkCount M T) i hn hnT (List.mem_range.mp hi)
      omega
  · intro hne
    rw [List.getLast_eq_getElem]
    simp only [List.getElem_map, List.getElem_range, List.length_map, List.length_range]
    constructor
    · exact chunkRangeAt_end_last T (T / chunkCount M T) (chunkCount M T)
    · rw [chunkRangeAt_end_last, chunkRangeAt_start]
      have hmin : min M T = chunkCount M T := rfl
      rw [hmin]
      obtain ⟨m, hm⟩ : ∃ m, chunkCount M T = m + 1 := ⟨chunkCount M T - 1, by omega⟩
      rw [hm] at hnT ⊢
      simp only [Nat.add_sub_cancel]
      have hdm := Nat.div_add_mod T (m + 1)
      have hsplit : (m + 1) * (T / (m + 1)) = m * (T / (m + 1)) + T / (m + 1) := by ring
      generalize hq : (m + 1) * (T / (m + 1)) = q at hdm hsplit
      generalize hp : m * (T / (m + 1)) = p at hsplit ⊢
      generalize hx : T / (m + 1) = x at hsplit ⊢
      generalize hy : T % (m + 1) = y at hdm ⊢
      omega

/-- C1 witness at `totalSize = 1000`, `maxChunks = 3` (the spec's worked
example). -/
theorem plan_covers_exactly_witness :
    0 < 1000 ∧ 1 ≤ 3 ∧
      ∃ rs : List ChunkRange, plan 1000 3 = some rs ∧ rs.length = min 3 1000 := by
  refine ⟨by decide, by decide, ?_⟩
  obtain ⟨rs, h1, h2, _⟩ := plan_covers_exactly 1000 3 (by decide) (by decide)
  exact ⟨rs, h1, h2⟩

/-! ### Reassembly, `main.rs:181-195` -/

/-- Bytes written to the output file by the loop at `main.rs:183-195`:
each `Some` slot is read fully and appended in index order, each `None`
slot is skipped.  A slot is the `temp_files` entry of one chunk,
abstracted to the staged bytes it points to. -/
def assembleOutput (results : List (Option (List Nat))) : List Nat :=
  results.foldl (fun acc r =>
    match r with
    | some bytes => acc ++ bytes
    | none => acc) []

/-- The skip report of the reassembly loop (`main.rs:192-194`), recording
the failed indices from loop counter `i` onward. -/
def missingFrom (i : Nat) : List (Option (List Nat)) → List Nat
  | [] => []
  | some _ :: rest => missingFrom (i + 1) rest
  | none :: rest => i :: missingFrom (i + 1) rest

/-- Indices reported missing by the reassembly loop. -/
def missingChunks (results : List (Option (List Nat))) : List Nat :=
  missingFrom 0 results

/-- Text of the per-chunk skip report printed at `main.rs:193`. -/
def skipMessage (i : Nat) : String :=
  "Skipping chunk " ++ toString i ++ " as it failed to download"

/-- Skip messages printed by the reassembly loop, from counter `i` on. -/
def skipMessagesFrom (i : Nat) : List (Option (List Nat)) → List String
  | [] => []
  | some _ :: rest => skipMessagesFrom (i + 1) rest
  | none :: rest => skipMessage i :: skipMessagesFrom (i + 1) rest

lemma assembleOutput_foldl (acc : List Nat) (results : List (Option (List Nat))) :
    results.foldl (fun acc r =>
      match r with
      | some bytes => acc ++ bytes
      | none => acc) acc = acc ++ (results.filterMap id).flatten := by
  induction results generalizing acc with
  | nil => simp
  | cons r rest ih =>
      cases r with
      | none => simp [List.foldl_cons, ih acc]
      | some b => simp [List.foldl_cons, ih (acc ++ b)]

lemma assembleOutput_eq_join (results : List (Option (List Nat))) :
    assembleOutput results = (results.filterMap id).flatten := by
  unfold assembleOutput
  rw [assembleOutput_foldl]
  simp

lemma filterMap_id_map_some {α : Type} (f : Nat → α) (l : List Nat) :
    (l.map (fun i => some (f i))).filterMap id = l.map f := by
  induction l with
  | nil => rfl
  | cons x xs ih => simp [ih]

lemma missingFrom_map_some (f : Nat → List Nat) (l : List Nat) (i : Nat) :
    missingFrom i (l.map (fun j => some (f j))) = [] := by
  induction l generalizing i with
  | nil => rfl
  | cons x xs ih => simp [missingFrom, ih]

/-- C2: if every one of the planned chunks is staged with exactly the
`end - start + 1` bytes of its range, the reassembly loop appends the
staged chunks strictly in index order: the output equals the
concatenation of all chunk bytes in range order, its length is
`totalSize`, and no chunk index is reported missing. -/
theorem assemble_all_success (T M : Nat) (hT : 0 < T) (hM : 1 ≤ M)
    (chunkBytes : Nat → List Nat)
    (hlen : ∀ i, i < chunkCount M T → (chunkBytes i).length =
      (chunkRangeAt T (T / chunkCount M T) (chunkCount M T) i).endByte + 1 -
      (chunkRangeAt T (T / chunkCount M T) (chunkCount M T) i).startByte) :
    assembleOutput ((List.range (chunkCount M T)).map (fun i => some (chunkBytes i)))
      = ((List.range (chunkCount M T)).map chunkBytes).flatten ∧
    (assembleOutput ((List.range (chunkCount M T)).map
      (fun i => some (chunkBytes i)))).length = T ∧
    missingChunks ((List.range (chunkCount M T)).map
      (fun i => some (chunkBytes i))) = [] := by
  have hn : 0 < chunkCount M T := chunkCount_pos M T hT hM
  have hnT : chunkCount M T ≤ T := chunkCount_le M T
  have h1 : assembleOutput ((List.range (chunkCount M T)).map
      (fun i => some (chunkBytes i)))
      = ((List.range (chunkCount M T)).map chunkBytes).flatten := by
    rw [assembleOutput_eq_join, filterMap_id_map_some]
  refine ⟨h1, ?_, ?_⟩
  · rw [h1, List.length_flatten, List.map_map]
    have hcongr : List.map (List.length ∘ chunkBytes) (List.range (chunkCount M T)) =
        List.map (fun i =>
          (chunkRangeAt T (T / chunkCount M T) (chunkCount M T) i).endByte + 1 -
          (chunkRangeAt T (T / chunkCount M T) (chunkCount M T) i).startByte)
          (List.range (chunkCount M T)) := by
      apply List.map_congr_left
      intro i hi
      exact hlen i (List.mem_range.mp hi)
    rw [hcongr]
    exact chunk_sizes_sum T (chunkCount M T) hn hnT
  · exact missingFrom_map_some chunkBytes (List.range (chunkCount M T)) 0

/-- C2 witness: `totalSize = 4`, `maxChunks = 2`, both chunks staged with
their exact 2 bytes. -/
theorem assemble_all_success_witness :
    (assembleOutput ((List.range (chunkCount 2 4)).map
      (fun i => some ([i, i])))).length = 4 ∧
    missingChunks ((List.range (chunkCount 2 4)).map (fun i => some ([i, i]))) = [] :=
  ⟨(assemble_all_success 4 2 (by decide) (by decide) (fun i => [i, i]) (by decide)).2.1,
   (assemble_all_success 4 2 (by decide) (by decide) (fun i => [i, i]) (by decide)).2.2⟩

/-! ### Per-chunk fetch with retry, `main.rs:149-175` -/

/-- One chunk's retry loop (`main.rs:150-174`), written as a fuel
recursion on the remaining attempt budget `maxRetries - retries` (the
Rust loop runs `while retries < max_retries` and `retries` grows by one
per failed attempt, so this budget strictly decreases).  `oracle k` is
the outcome of the `k`-th `download_chunk` call for this chunk:
`some bytes` for `Ok(bytes)` (the bytes are also written to the chunk's
staging file), `none` for `Err(e)`.  Returns the chunk's `temp_files`
slot (filled only on success, `main.rs:157`), the number of
`download_chunk` calls made, and the progress-bar increments emitted by
`pb.inc` at `main.rs:155`. -/
def fetchAttempts (oracle : Nat → Option (List Nat)) (retries : Nat) :
    Nat → Option (List Nat) × Nat × List Nat
  | 0 => (none, retries, [])
  | budget + 1 =>
    match oracle retries with
    | some b => (some b, retries + 1, [b.length])
    | none => fetchAttempts oracle (retries + 1) budget

/-- One chunk task, `main.rs:149-175`: the retry loop started with
`retries = 0` and a budget of `maxRetries` attempts. -/
def fetchChunk (oracle : Nat → Option (List Nat)) (maxRetries : Nat) :
    Option (List Nat) × Nat × List Nat :=
  fetchAttempts oracle 0 maxRetries

lemma fetchAttempts_attempts_le (oracle : Nat → Option (List Nat)) :
    ∀ budget retries, (fetchAttempts oracle retries budget).2.1 ≤ retries + budget := by
  intro budget
  induction budget with
  | zero => intro r; simp [fetchAttempts]
  | succ k ih =>
      intro r
      simp only [fetchAttempts]
      cases h : oracle r with
      | some b => simp
      | none =>
          have h2 := ih (r + 1)
          simp
          omega

lemma fetchAttempts_first_success (oracle : Nat → Option (List Nat)) :
    ∀ budget retries j b, retries ≤ j → j < retries + budget →
      (∀ i, retries ≤ i → i < j → oracle i = none) → oracle j = some b →
      fetchAttempts oracle retries budget = (some b, j + 1, [b.length]) := by
  intro budget
  induction budget with
  | zero => intro r j b h1 h2 _ _; omega
  | succ k ih =>
      intro r j b h1 h2 hfail hj
      by_cases hrj : r = j
      · subst hrj
        simp [fetchAttempts, hj]
      · have hr : oracle r = none := hfail r le_rfl (by omega)
        simp only [fetchAttempts, hr]
        exact ih (r + 1) j b (by omega) (by omega)
          (fun i ha hb => hfail i (by omega) hb) hj

lemma fetchAttempts_all_fail (oracle : Nat → Option (List Nat)) :
    ∀ budget retries, (∀ i, retries ≤ i → i < retries + budget → oracle i = none) →
      fetchAttempts oracle retries budget = (none, retries + budget, []) := by
  intro budget
  induction budget with
  | zero => intro r _; simp [fetchAttempts]
  | succ k ih =>
      intro r hfail
      have hr : oracle r = none := hfail r le_rfl (by omega)
      simp only [fetchAttempts, hr]
      rw [ih (r + 1) (fun i ha hb => hfail i (by omega) (by omega))]
      have harith : r + 1 + k = r + (k + 1) := by omega
      rw [harith]

lemma fetchAttempts_success_source (oracle : Nat → Option (List Nat)) :
    ∀ budget retries b, (fetchAttempts oracle retries budget).1 = some b →
      ∃ k, oracle k = some b := by
  intro budget
  induction budget with
  | zero => intro r b h; simp [fetchAttempts] at h
  | succ k ih =>
      intro r b h
      simp only [fetchAttempts] at h
      cases ho : oracle r with
      | some c =>
          rw [ho] at h
          simp at h
          exact ⟨r, by rw [ho, h]⟩
      | none =>
          rw [ho] at h
          exact ih (r + 1) b h

lemma fetchAttempts_incs (oracle : Nat → Option (List Nat)) :
    ∀ budget retries, (fetchAttempts oracle retries budget).2.2 =
      match (fetchAttempts oracle retries budget).1 with
      | some b => [b.length]
      | none => [] := by
  intro budget
  induction budget with
  | zero => intro r; simp [fetchAttempts]
  | succ k ih =>
      intro r
      simp only [fetchAttempts]
      cases ho : oracle r with
      | some c => simp
      | none => exact ih (r + 1)

/-- C5: a chunk's fetch loop performs at most `maxRetries` download
attempts and stops at the first success: a first success at attempt `j`
fills the slot and stops after exactly `j + 1` attempts (in particular,
failing the first `maxRetries - 1` attempts and succeeding on the final
one yields a fetched chunk); if all `maxRetries` attempts fail, the slot
stays empty and exactly `maxRetries` attempts were made, none after. -/
theorem fetchChunk_retry_spec (maxRetries : Nat) (oracle : Nat → Option (List Nat)) :
    (fetchChunk oracle maxRetries).2.1 ≤ maxRetries ∧
    (∀ j b, j < maxRetries → (∀ i, i < j → oracle i = none) → oracle j = some b →
      fetchChunk oracle maxRetries = (some b, j + 1, [b.length])) ∧
    ((∀ i, i < maxRetries → oracle i = none) →
      fetchChunk oracle maxRetries = (none, maxRetries, [])) := by
  refine ⟨?_, ?_, ?_⟩
  · have h := fetchAttempts_attempts_le oracle maxRetries 0
    simpa [fetchChunk] using h
  · intro j b hj hfail hsucc
    exact fetchAttempts_first_success oracle maxRetries 0 j b (by omega) (by omega)
      (fun i _ hb => hfail i hb) hsucc
  · intro hfail
    have h := fetchAttempts_all_fail oracle maxRetries 0 (fun i _ hb => hfail i (by omega))
    simpa [fetchChunk] using h

/-- C5 witness: with `maxRetries = 3`, two failures then a final success
produce a fetched slot after 3 attempts; three failures leave the slot
empty after exactly 3 attempts. -/
theorem fetchChunk_retry_spec_witness :
    fetchChunk (fun k => if k = 2 then some [7] else none) 3 = (some [7], 3, [1]) ∧
    fetchChunk (fun _ => none) 3 = (none, 3, []) :=
  ⟨(fetchChunk_retry_spec 3 (fun k => if k = 2 then some [7] else none)).2.1 2 [7]
      (by decide) (by decide) rfl,
   (fetchChunk_retry_spec 3 (fun _ => none)).2.2 (fun i _ => rfl)⟩

/-! ### Probe header reading, `main.rs:99-112` -/

/-- Decimal value of a digit string. -/
def decimalValue (l : List Char) : Nat :=
  l.foldl (fun a c => a * 10 + (c.toNat - 48)) 0

/-- Rust `str::parse::<u64>`: an optional leading `+`, then at least one
ASCII digit, with the value inside the `u64` range; anything else is a
parse error.  Implemented over the string's character list. -/
def parseU64 (s : String) : Option Nat :=
  let t := match s.data with
    | '+' :: rest => rest
    | cs => cs
  if t.length = 0 then none
  else if t.all (fun c => c.isDigit) then
    if decimalValue t < 2 ^ 64 then some (decimalValue t) else none
  else none

/-- Reading the total size at `main.rs:105-112`: the `Content-Length`
header value (`none` when the header is absent or not a valid header
string) is defaulted to `"0"` by `unwrap_or` and then parsed; `none`
models the `.expect("Invalid content length")` panic on a parse
failure. -/
def readContentLength (h : Option String) : Option Nat :=
  parseU64 (h.getD ("0"))

example : readContentLength none = some 0 := by decide
example : readContentLength (some ("1000")) = some 1000 := by decide

/-- C7 counterexample: a present but unparsable `Content-Length` value is
not defaulted to 0 at the point of reading; the parse panics
(`.expect("Invalid content length")`, `main.rs:110-112`). -/
theorem readContentLength_unparsable_cex :
    readContentLength (some ("abc")) = none ∧
    readContentLength (some ("abc")) ≠ some 0 := by decide

/-- C7 amended: the total size is taken from `Content-Length`, defaulting
to 0 only when the header is absent (or its value is not a readable
string); a header value that is present but unparsable as a `u64` makes
the program panic instead of defaulting to 0. -/
theorem readContentLength_spec (s : String) (v : Nat) :
    readContentLength none = some 0 ∧
    (parseU64 s = none → readContentLength (some s) = none) ∧
    (parseU64 s = some v → readContentLength (some s) = some v) := by
  refine ⟨by decide, ?_, ?_⟩ <;> intro h <;> simpa [readContentLength] using h

/-- C7 amended witness at the absent header and the value `"abc"`. -/
theorem readContentLength_spec_witness :
    readContentLength none = some 0 ∧ readContentLength (some ("abc")) = none :=
  ⟨(readContentLength_spec ("abc") 0).1,
   (readContentLength_spec ("abc") 0).2.1 (by decide)⟩

/-! ### Top-level control flow of `main`, `main.rs:99-202` -/

/-- The range-support condition at `main.rs:104`: the `accept-ranges`
header is present, readable, and exactly `bytes`. -/
def supportsRanges (acceptRanges : Option String) : Bool :=
  acceptRanges == some ("bytes")

/-- Observable effects of one completed run of `main` past the probe. -/
structure RunReport where
  planComputed : Option (List ChunkRange)
  stagingCreated : Bool
  tasksSpawned : Nat
  chunkResults : List (Option (List Nat))
  outputFile : Option (List Nat)
  progressIncrements : List (List Nat)
  messages : List String
  deriving Repr, DecidableEq

/-- Outcome of a run: an `.expect`/arithmetic panic, or the effects of a
run that terminates normally. -/
inductive RunOutcome where
  | panicked (msg : String)
  | done (r : RunReport)
  deriving Repr, DecidableEq

/-- Effects of the `else` branch at `main.rs:200-202`: no plan computed,
no staging directory, no tasks, no output file, only the
unsupported-range message. -/
def noRangeReport : RunReport :=
  { planComputed := none
    stagingCreated := false
    tasksSpawned := 0
    chunkResults := []
    outputFile := none
    progressIncrements := []
    messages := ["Server does not support range requests"] }

/-- Model of `main` from the `Accept-Ranges` check on (`main.rs:99-202`),
the probe having already returned a success status.  `acceptRanges` and
`contentLength` are the probe's header values (`none` = absent or not a
readable string); `oracle i k` is the outcome of the `k`-th
`download_chunk` call of chunk `i`.  The concurrency of the spawned
tasks is modelled by index-wise independence: each task's terminal
result is a function of its own oracle alone, and the `join_all` at
`main.rs:178` hands the complete result vector to the reassembly loop.
The final `File saved at` line is identical in every completed supported
run (it depends only on the excluded filename collaborator) and is
omitted from `messages`. -/
def runModel (acceptRanges contentLength : Option String)
    (maxChunks maxRetries : Nat) (oracle : Nat → Nat → Option (List Nat)) :
    RunOutcome :=
  if supportsRanges acceptRanges then
    match readContentLength contentLength with
    | none => .panicked ("Invalid content length")
    | some T =>
      let n := chunkCount maxChunks T
      match rustDiv T n with
      | none => .panicked ("attempt to divide by zero")
      | some cs =>
        let results := (List.range n).map (fun i => (fetchChunk (oracle i) maxRetries).1)
        .done
          { planComputed := some ((List.range n).map (chunkRangeAt T cs n))
            stagingCreated := true
            tasksSpawned := n
            chunkResults := results
            outputFile := some (assembleOutput results)
            progressIncrements :=
              (List.range n).map (fun i => (fetchChunk (oracle i) maxRetries).2.2)
            messages := ("Will split into " ++ toString n ++ " chunks")
              :: (skipMessagesFrom 0 results ++ ["Download complete!"]) }
  else .done noRangeReport

/-- Normal form of the supported branch. -/
lemma runModel_supported (cl : Option String) (mc mr : Nat)
    (oracle : Nat → Nat → Option (List Nat)) (T : Nat)
    (hcl : readContentLength cl = some T) (hn : 0 < chunkCount mc T) :
    runModel (some ("bytes")) cl mc mr oracle = .done
      { planComputed := some ((List.range (chunkCount mc T)).map
          (chunkRangeAt T (T / chunkCount mc T) (chunkCount mc T)))
        stagingCreated := true
        tasksSpawned := chunkCount mc T
        chunkResults := (List.range (chunkCount mc T)).map
          (fun i => (fetchChunk (oracle i) mr).1)
        outputFile := some (assembleOutput ((List.range (chunkCount mc T)).map
          (fun i => (fetchChunk (oracle i) mr).1)))
        progressIncrements := (List.range (chunkCount mc T)).map
          (fun i => (fetchChunk (oracle i) mr).2.2)
        messages := ("Will split into " ++ toString (chunkCount mc T) ++ " chunks")
          :: (skipMessagesFrom 0 ((List.range (chunkCount mc T)).map
              (fun i => (fetchChunk (oracle i) mr).1)) ++ ["Download complete!"]) } := by
  have hsr : supportsRanges (some ("bytes")) = true := by decide
  have hne : ¬ chunkCount mc T = 0 := by omega
  simp [runModel, hsr, hcl, rustDiv, hne]

/-- C6: range support is recognized exactly when the `Accept-Ranges`
value equals `bytes`; with any other value, or an absent or unreadable
header, the run stops after reporting the lack of range support: no
chunk plan is computed, no fetch task is spawned, no staging directory
is created, and no output file is written. -/
theorem no_range_support_stops (ar cl : Option String) (mc mr : Nat)
    (oracle : Nat → Nat → Option (List Nat)) (h : ar ≠ some ("bytes")) :
    (∀ x : Option String, supportsRanges x = true ↔ x = some ("bytes")) ∧
    runModel ar cl mc mr oracle = .done noRangeReport ∧
    noRangeReport.planComputed = none ∧
    noRangeReport.stagingCreated = false ∧
    noRangeReport.tasksSpawned = 0 ∧
    noRangeReport.outputFile = none ∧
    noRangeReport.messages = ["Server does not support range requests"] := by
  refine ⟨?_, ?_, rfl, rfl, rfl, rfl, rfl⟩
  · intro x
    simp [supportsRanges]
  · have hb : supportsRanges ar = false := by
      simp [supportsRanges]
      exact h
    simp [runModel, hb]

/-- C6 witness: an absent `Accept-Ranges` header. -/
theorem no_range_support_stops_witness :
    runModel none none 500 3 (fun _ _ => none) = .done noRangeReport :=
  (no_range_support_stops none none 500 3 (fun _ _ => none) (by decide)).2.1

/-- C3 counterexample: at `totalSize = 0` and `maxChunks = 500` the
planner does not produce an empty plan; the `chunk_size` division at
`main.rs:115` is evaluated with `chunk_count = 0` and panics. -/
theorem plan_zero_cex : plan 0 500 = none ∧ plan 0 500 ≠ some [] := by decide

/-- C3 amended: for `totalSize = 0` (any `maxChunks`), the chunk count is
0 and the `chunk_size` division `totalSize / chunkCount` is evaluated
with a zero divisor, so the plan computation panics instead of producing
an empty plan. -/
theorem plan_zero_panics (M : Nat) : plan 0 M = none := by
  simp [plan, chunkCount, rustDiv]

/-- C8: reassembly only ever sees the fully joined result vector: every
one of the `N` spawned chunk tasks contributes its terminal result
(success, or retries exhausted) to the vector read by the reassembly
loop, the output file is assembled from that complete vector (never from
a prefix cut off at the first failure), and one chunk's download
outcomes never influence a sibling chunk's result. -/
theorem full_barrier_join (cl : Option String) (mc mr : Nat)
    (oracle : Nat → Nat → Option (List Nat)) (T : Nat)
    (hcl : readContentLength cl = some T) (hT : 0 < T) (hmc : 1 ≤ mc) :
    ∃ rep : RunReport, runModel (some ("bytes")) cl mc mr oracle = .done rep ∧
      rep.chunkResults.length = chunkCount mc T ∧
      (∀ i (h : i < rep.chunkResults.length),
        rep.chunkResults.get ⟨i, h⟩ = (fetchChunk (oracle i) mr).1) ∧
      rep.outputFile = some (assembleOutput rep.chunkResults) ∧
      (∀ (oracle2 : Nat → Nat → Option (List Nat)) (j : Nat),
        (∀ i, i ≠ j → oracle2 i = oracle i) →
        ∃ rep2 : RunReport,
          runModel (some ("bytes")) cl mc mr oracle2 = .done rep2 ∧
          rep2.chunkResults.length = rep.chunkResults.length ∧
          ∀ i (h1 : i < rep.chunkResults.length) (h2 : i < rep2.chunkResults.length),
            i ≠ j → rep2.chunkResults.get ⟨i, h2⟩ = rep.chunkResults.get ⟨i, h1⟩) := by
  have hn : 0 < chunkCount mc T := chunkCount_pos mc T hT hmc
  refine ⟨_, runModel_supported cl mc mr oracle T hcl hn, by simp, ?_, rfl, ?_⟩
  · intro i h
    simp [List.get_eq_getElem]
  · intro oracle2 j hagree
    refine ⟨_, runModel_supported cl mc mr oracle2 T hcl hn, by simp, ?_⟩
    intro i h1 h2 hij
    simp only [List.get_eq_getElem, List.getElem_map, List.getElem_range]
    rw [hagree i hij]

/-- C8 witness: two 1-byte chunks, both succeeding at once. -/
theorem full_barrier_join_witness :
    ∃ rep : RunReport, runModel (some ("bytes")) (some ("2")) 2 1
        (fun _ _ => some [0]) = .done rep ∧
      rep.chunkResults.length = chunkCount 2 2 := by
  obtain ⟨rep, h1, h2, _⟩ := full_barrier_join (some ("2")) 2 1
    (fun _ _ => some [0]) 2 (by decide) (by decide) (by decide)
  exact ⟨rep, h1, h2⟩

/-! ### Progress accounting, `main.rs:129` and `main.rs:154-158` -/

/-- Size in bytes of chunk `i` of the plan with chunk count `n`:
`end - start + 1` of its `chunkRangeAt` range. -/
def chunkSizeAt (T n i : Nat) : Nat :=
  (chunkRangeAt T (T / n) n i).endByte + 1 - (chunkRangeAt T (T / n) n i).startByte

lemma chunkSizeAt_sum (T n : Nat) (hn : 0 < n) (hnT : n ≤ T) :
    ((List.range n).map (chunkSizeAt T n)).sum = T := by
  have h := chunk_sizes_sum T n hn hnT
  have he : List.map (chunkSizeAt T n) (List.range n) =
      List.map (fun i => (chunkRangeAt T (T / n) n i).endByte + 1 -
        (chunkRangeAt T (T / n) n i).startByte) (List.range n) := rfl
  rw [he, h]

/-- Values taken by the shared progress counter (`main.rs:129`): the
partial sums of the increment events, starting from `acc`. -/
def prefixSums (acc : Nat) : List Nat → List Nat
  | [] => [acc]
  | x :: xs => acc :: prefixSums (acc + x) xs

lemma prefixSums_headq (acc : Nat) (l : List Nat) :
    (prefixSums acc l).head? = some acc := by
  cases l <;> simp [prefixSums]

lemma prefixSums_chain (l : List Nat) :
    ∀ acc, List.Chain' (· ≤ ·) (prefixSums acc l) := by
  induction l with
  | nil => intro acc; simp [prefixSums]
  | cons x xs ih =>
      intro acc
      simp only [prefixSums]
      rw [List.chain'_cons']
      refine ⟨?_, ih (acc + x)⟩
      intro y hy
      rw [prefixSums_headq] at hy
      simp at hy
      omega

lemma prefixSums_le (l : List Nat) :
    ∀ acc x, x ∈ prefixSums acc l → x ≤ acc + l.sum := by
  induction l with
  | nil =>
      intro acc x hx
      simp [prefixSums] at hx
      omega
  | cons y ys ih =>
      intro acc x hx
      simp only [prefixSums, List.mem_cons] at hx
      rcases hx with rfl | hx
      · omega
      · have h := ih (acc + y) x hx
        rw [List.sum_cons]
        omega

lemma sum_flatten (l : List (List Nat)) :
    l.flatten.sum = (l.map List.sum).sum := by
  induction l with
  | nil => rfl
  | cons x xs ih => simp [List.flatten_cons, ih]

lemma fetchChunk_incs_eq (oracle : Nat → Option (List Nat)) (mr : Nat) :
    (fetchChunk oracle mr).2.2 =
      match (fetchChunk oracle mr).1 with
      | some b => [b.length]
      | none => [] :=
  fetchAttempts_incs oracle mr 0

lemma fetchChunk_success_source (oracle : Nat → Option (List Nat)) (mr : Nat)
    (b : List Nat) (h : (fetchChunk oracle mr).1 = some b) :
    ∃ k, oracle k = some b :=
  fetchAttempts_success_source oracle mr 0 b h

lemma fetchChunk_incs_sum_le (T n : Nat) (oracle : Nat → Option (List Nat)) (mr i : Nat)
    (hexact : ∀ k b, oracle k = some b → b.length = chunkSizeAt T n i) :
    ((fetchChunk oracle mr).2.2).sum ≤ chunkSizeAt T n i ∧
    ((fetchChunk oracle mr).1 ≠ none →
      ((fetchChunk oracle mr).2.2).sum = chunkSizeAt T n i) := by
  rw [fetchChunk_incs_eq]
  cases hs : (fetchChunk oracle mr).1 with
  | none => simp
  | some b =>
      obtain ⟨k, hk⟩ := fetchChunk_success_source oracle mr b hs
      have hb := hexact k b hk
      simp [hb]

/-- C9: each chunk's task emits at most one progress increment — only on
its first successful attempt, and equal to the byte count received (this
is the per-index equation with the fetch result); the counter, i.e. the
partial sums of the emitted increments in any completion order, is
monotonically non-decreasing and never exceeds `totalSize` when every
successful fetch returns exactly its range's `end - start + 1` bytes;
and in an all-success run its final value is exactly `totalSize`. -/
theorem progress_counter_spec (cl : Option String) (mc mr : Nat)
    (oracle : Nat → Nat → Option (List Nat)) (T : Nat)
    (hcl : readContentLength cl = some T) (hT : 0 < T) (hmc : 1 ≤ mc)
    (hexact : ∀ i k b, i < chunkCount mc T → oracle i k = some b →
      b.length = chunkSizeAt T (chunkCount mc T) i) :
    ∃ rep : RunReport, runModel (some ("bytes")) cl mc mr oracle = .done rep ∧
      (∀ i (h : i < rep.progressIncrements.length),
        rep.progressIncrements.get ⟨i, h⟩ =
          match (fetchChunk (oracle i) mr).1 with
          | some b => [b.length]
          | none => []) ∧
      rep.progressIncrements.flatten.sum ≤ T ∧
      (∀ seq : List Nat, seq.Perm rep.progressIncrements.flatten →
        List.Chain' (· ≤ ·) (prefixSums 0 seq) ∧
        ∀ x ∈ prefixSums 0 seq, x ≤ T) ∧
      ((∀ i, i < chunkCount mc T → (fetchChunk (oracle i) mr).1 ≠ none) →
        rep.progressIncrements.flatten.sum = T) := by
  have hn : 0 < chunkCount mc T := chunkCount_pos mc T hT hmc
  have hnT : chunkCount mc T ≤ T := chunkCount_le mc T
  have hsum_le : (((List.range (chunkCount mc T)).map
      (fun i => (fetchChunk (oracle i) mr).2.2)).flatten).sum ≤ T := by
    rw [sum_flatten, List.map_map]
    have hle : ((List.range (chunkCount mc T)).map
        (List.sum ∘ fun i => (fetchChunk (oracle i) mr).2.2)).sum ≤
        ((List.range (chunkCount mc T)).map (chunkSizeAt T (chunkCount mc T))).sum := by
      apply List.sum_le_sum
      intro i hi
      exact (fetchChunk_incs_sum_le T (chunkCount mc T) (oracle i) mr i
        (fun k b hk => hexact i k b (List.mem_range.mp hi) hk)).1
    calc ((List.range (chunkCount mc T)).map
        (List.sum ∘ fun i => (fetchChunk (oracle i) mr).2.2)).sum
        ≤ ((List.range (chunkCount mc T)).map (chunkSizeAt T (chunkCount mc T))).sum := hle
      _ = T := chunkSizeAt_sum T (chunkCount mc T) hn hnT
  refine ⟨_, runModel_supported cl mc mr oracle T hcl hn, ?_, hsum_le, ?_, ?_⟩
  · intro i h
    simp only [List.get_eq_getElem, List.getElem_map, List.getElem_range]
    exact fetchChunk_incs_eq (oracle i) mr
  · intro seq hperm
    refine ⟨prefixSums_chain seq 0, ?_⟩
    intro x hx
    have h1 := prefixSums_le seq 0 x hx
    have h2 : seq.sum = (((List.range (chunkCount mc T)).map
        (fun i => (fetchChunk (oracle i) mr).2.2)).flatten).sum := hperm.sum_eq
    omega
  · intro hall
    show (((List.range (chunkCount mc T)).map
      (fun i => (fetchChunk (oracle i) mr).2.2)).flatten).sum = T
    rw [sum_flatten, List.map_map]
    have heq : List.map (List.sum ∘ fun i => (fetchChunk (oracle i) mr).2.2)
        (List.range (chunkCount mc T)) =
        List.map (chunkSizeAt T (chunkCount mc T)) (List.range (chunkCount mc T)) := by
      apply List.map_congr_left
      intro i hi
      exact (fetchChunk_incs_sum_le T (chunkCount mc T) (oracle i) mr i
        (fun k b hk => hexact i k b (List.mem_range.mp hi) hk)).2
        (hall i (List.mem_range.mp hi))
    rw [heq]
    exact chunkSizeAt_sum T (chunkCount mc T) hn hnT

/-- C9 witness: two 2-byte chunks of a 4-byte resource, both fetched on
the first attempt; the final counter value is 4. -/
theorem progress_counter_spec_witness :
    ∃ rep : RunReport, runModel (some ("bytes")) (some ("4")) 2 1
        (fun i _ => some [i, i]) = .done rep ∧
      rep.progressIncrements.flatten.sum = 4 := by
  have hexact : ∀ i k b, i < chunkCount 2 4 →
      (fun (i _ : Nat) => some [i, i] : Nat → Nat → Option (List Nat)) i k = some b →
      b.length = chunkSizeAt 4 (chunkCount 2 4) i := by
    intro i k b hi hk
    have hb : b = [i, i] := by
      cases hk
      rfl
    subst hb
    have h2 : chunkCount 2 4 = 2 := by decide
    rw [h2] at hi ⊢
    interval_cases i <;> decide
  obtain ⟨rep, h1, _, _, _, hs⟩ := progress_counter_spec (some ("4")) 2 1
    (fun i _ => some [i, i]) 4 (by decide) (by decide) (by decide) hexact
  refine ⟨rep, h1, hs ?_⟩
  intro i hi
  simp [fetchChunk, fetchAttempts]

/-! ### Degenerate and partial-failure runs -/

lemma map_none_replicate (n : Nat) :
    (List.range n).map (fun _ => (none : Option (List Nat))) =
      List.replicate n none := by
  induction n with
  | zero => rfl
  | succ k ih =>
      rw [List.range_succ, List.map_append, ih, List.replicate_succ']
      rfl

lemma missingFrom_replicate_none (n : Nat) :
    ∀ i, missingFrom i (List.replicate n none) = List.range' i n := by
  induction n with
  | zero => intro i; rfl
  | succ k ih =>
      intro i
      rw [List.replicate_succ]
      show i :: missingFrom (i + 1) (List.replicate k none) = List.range' i (k + 1)
      rw [ih (i + 1)]
      rfl

lemma assembleOutput_replicate_none (n : Nat) :
    assembleOutput (List.replicate n none) = [] := by
  rw [assembleOutput_eq_join]
  induction n with
  | zero => rfl
  | succ k ih =>
      rw [List.replicate_succ]
      simp only [List.filterMap_cons, id]
      exact ih

/-- C10: with `maxRetries = 0` the retry loop body never runs: every
chunk's task makes zero `download_chunk` calls — no range GET is issued
and no staging file is written — and leaves its slot empty; every chunk
index is reported missing, yet the run passes the join, creates the
output file empty, and ends with the same `Download complete!` message
as a fully successful run. -/
theorem zero_retries_completes (cl : Option String) (mc : Nat)
    (oracle : Nat → Nat → Option (List Nat)) (T : Nat)
    (hcl : readContentLength cl = some T) (hT : 0 < T) (hmc : 1 ≤ mc) :
    (∀ i, fetchChunk (oracle i) 0 = (none, 0, [])) ∧
    ∃ rep : RunReport, runModel (some ("bytes")) cl mc 0 oracle = .done rep ∧
      rep.chunkResults = List.replicate (chunkCount mc T) none ∧
      missingChunks rep.chunkResults = List.range (chunkCount mc T) ∧
      rep.outputFile = some [] ∧
      "Download complete!" ∈ rep.messages := by
  have hn : 0 < chunkCount mc T := chunkCount_pos mc T hT hmc
  have hres : (List.range (chunkCount mc T)).map (fun i => (fetchChunk (oracle i) 0).1) =
      List.replicate (chunkCount mc T) none := by
    have h1 : (List.range (chunkCount mc T)).map (fun i => (fetchChunk (oracle i) 0).1) =
        (List.range (chunkCount mc T)).map (fun _ => (none : Option (List Nat))) :=
      List.map_congr_left (fun i _ => rfl)
    rw [h1, map_none_replicate]
  refine ⟨fun i => rfl, _, runModel_supported cl mc 0 oracle T hcl hn,
    hres, ?_, ?_, ?_⟩
  · show missingChunks ((List.range (chunkCount mc T)).map
      (fun i => (fetchChunk (oracle i) 0).1)) = List.range (chunkCount mc T)
    rw [hres]
    unfold missingChunks
    rw [missingFrom_replicate_none]
    exact (List.range_eq_range' (chunkCount mc T)).symm
  · show some (assembleOutput ((List.range (chunkCount mc T)).map
      (fun i => (fetchChunk (oracle i) 0).1))) = some []
    rw [hres, assembleOutput_replicate_none]
  · show ("Download complete!" : String) ∈
      ("Will split into " ++ toString (chunkCount mc T) ++ " chunks")
        :: (skipMessagesFrom 0 ((List.range (chunkCount mc T)).map
            (fun i => (fetchChunk (oracle i) 0).1)) ++ ["Download complete!"])
    simp

/-- C10 witness: `totalSize = 3`, `maxChunks = 2`, `maxRetries = 0`. -/
theorem zero_retries_completes_witness :
    ∃ rep : RunReport, runModel (some ("bytes")) (some ("3")) 2 0
        (fun _ _ => none) = .done rep ∧ rep.outputFile = some [] := by
  obtain ⟨-, rep, h1, -, -, h4, -⟩ := zero_retries_completes (some ("3")) 2
    (fun _ _ => none) 3 (by decide) (by decide) (by decide)
  exact ⟨rep, h1, h4⟩

/-- Failing input for C4: five 1-byte chunks, chunk 2 failing every
attempt, every other chunk succeeding with its exact byte. -/
def c4Oracle (i : Nat) (_ : Nat) : Option (List Nat) :=
  if i = 2 then none else some [100 + i]

/-- C4 (code bug): at `totalSize = 5`, `maxChunks = 5`, `maxRetries = 1`
with chunk 2 exhausting its retries, the run reports the failed index in
the skip line, but its messages end with the very `Download complete!`
unconditional success message of a clean run and never state that the
output file is incomplete: the full message list is exactly the
chunk-count line, the skip line for index 2, and the completion message,
while the output file holds only 4 of the 5 bytes. -/
theorem partial_failure_reported_as_complete :
    ∃ rep : RunReport, runModel (some ("bytes")) (some ("5")) 5 1 c4Oracle = .done rep ∧
      missingChunks rep.chunkResults = [2] ∧
      rep.outputFile = some [100, 101, 103, 104] ∧
      rep.messages = ["Will split into 5 chunks", skipMessage 2, "Download complete!"] ∧
      "Download complete!" ∈ rep.messages := by
  refine ⟨_, rfl, ?_, ?_, ?_, ?_⟩ <;> decide

end IDownloader
